import Mathlib

/-!
Verification of the YAML multi-document codec and loader (src/yaml.ts).

The repository's own logic (the class Yaml: stringify / formatObjects / load,
the empty-document filter loop, loadurl's invocation parameters) is embedded
directly from the source.  The two external collaborators the source calls —
the yaml npm library (YAML.stringify, YAML.parseAllDocuments) and Node's
execFileSync — are not part of this repository; they are modelled from the
specification's description of their contracts (see the doc comments marked
"Modelled from the spec").
-/

namespace Cdk

mutual
/-- In-memory document values, as described by the spec's data model (§3):
mapping (string-keyed, insertion order preserved), ordered sequence, scalar
(string / number / boolean / null), or the explicit "undefined" marker
(JavaScript undefined). -/
inductive Value where
  | undef : Value
  | null : Value
  | bool (b : Bool) : Value
  | num (i : Int) : Value
  | str (s : String) : Value
  | arr (xs : ValueList) : Value
  | obj (kvs : ObjList) : Value
inductive ValueList where
  | nil : ValueList
  | cons (v : Value) (vs : ValueList) : ValueList
inductive ObjList where
  | nil : ObjList
  | cons (k : String) (v : Value) (kvs : ObjList) : ObjList
end

/-- The "skip empty documents" test from the loop body of Yaml.load
(src/yaml.ts lines 82-86), one clause per `continue`:
`obj === undefined`; `obj === null`; `Array.isArray(obj) && obj.length === 0`;
`typeof obj === 'object' && Object.keys(obj).length === 0`.  A non-empty
array has non-zero `Object.keys` length and scalars have `typeof` other than
'object', so the fourth clause fires exactly on zero-key mappings. -/
def isEmptyCheck : Value → Bool
  | .undef => true
  | .null => true
  | .arr .nil => true
  | .obj .nil => true
  | _ => false

/-- The accumulation loop of Yaml.load (src/yaml.ts lines 80-88):
`for (const obj of objects...) { if <empty> continue; result.push(obj) }`. -/
def Yaml.emptyFilterLoop (objs : List Value) : List Value :=
  objs.foldl (fun result obj => if isEmptyCheck obj then result else result ++ [obj]) []

/-- The empty-document classification in the words of the spec (§3): a value
is empty iff it is the undefined/absence marker, an explicit null, an empty
sequence, or a mapping with zero keys. -/
def isEmptySpec : Value → Bool
  | .undef => true
  | .null => true
  | .arr .nil => true
  | .obj .nil => true
  | _ => false

/-- JavaScript Array.prototype.join with a separator string, used by
Yaml.stringify as `.join('---\n')`. -/
def joinSep (sep : String) : List String → String
  | [] => ""
  | [s] => s
  | s :: rest => s ++ sep ++ joinSep sep rest

/-- Decimal digit character for k < 10. -/
def digitCh (k : Nat) : Char := Char.ofNat (48 + k)

/-- Fuel-bounded decimal rendering; any fuel above the number suffices. -/
def toDecFuel : Nat → Nat → List Char
  | 0, _ => []
  | Nat.succ f, n =>
    if n < 10 then [digitCh n] else toDecFuel f (n / 10) ++ [digitCh (n % 10)]

/-- Decimal digit characters of a natural number, most significant first. -/
def toDec (n : Nat) : List Char := toDecFuel (n + 1) n

/-- Decimal rendering of an integer. -/
def renderInt (i : Int) : List Char :=
  if i < 0 then '-' :: toDec i.natAbs else toDec i.natAbs

/-- Escaping of one character inside a double-quoted YAML scalar. -/
def escChar (c : Char) : List Char :=
  if c = '\"' then ['\\', '\"'] else if c = '\\' then ['\\', '\\'] else [c]

/-- Escaping of a character sequence inside a double-quoted YAML scalar. -/
def escList : List Char → List Char
  | [] => []
  | c :: cs => escChar c ++ escList cs

/-- The serialized form of a mapping key: a double-quoted escaped scalar. -/
def keyChars (k : String) : List Char := '\"' :: escList k.data ++ ['\"']

/-- Comma-space joining of already-rendered flow items. -/
def joinComma : List (List Char) → List Char
  | [] => []
  | [e] => e
  | e :: es => e ++ ',' :: ' ' :: joinComma es

mutual
/-- Modelled from the spec: the rendering core of the external yaml library's
YAML.stringify (§4.1): serialize one value as a flow-style YAML document body
under the fixed schema version; an explicit undefined value nested inside a
container is emitted as null when keepUndefined (ku) is set, and a mapping
entry whose value is undefined is dropped when keepUndefined is not set. -/
def renderVal (ku : Bool) : Value → List Char
  | .undef => "null".data
  | .null => "null".data
  | .bool true => "true".data
  | .bool false => "false".data
  | .num i => renderInt i
  | .str s => '\"' :: escList s.data ++ ['\"']
  | .arr xs => '[' :: joinComma (elemsList ku xs) ++ [']']
  | .obj kvs => '{' :: joinComma (entriesList ku kvs) ++ ['}']
def elemsList (ku : Bool) : ValueList → List (List Char)
  | .nil => []
  | .cons v vs => renderVal ku v :: elemsList ku vs
def entriesList (ku : Bool) : ObjList → List (List Char)
  | .nil => []
  | .cons k v kvs =>
    match ku, v with
    | false, .undef => entriesList false kvs
    | _, _ => (keyChars k ++ ':' :: ' ' :: renderVal ku v) :: entriesList ku kvs
end

/-- Modelled from the spec: the external yaml library's single-document
serializer, `YAML.stringify(value, { keepUndefined, lineWidth: 0, version })`
(§4.1): one document body followed by a terminating newline; no line
wrapping is modelled, matching the unbounded line width the source requests. -/
def YamlLib.stringifyDoc (version : String) (keepUndefined : Bool) (v : Value) : String :=
  String.mk (renderVal keepUndefined v ++ ['\n'])

/-- The fixed schema version constant (src/yaml.ts line 12). -/
def yamlSchemaVersion : String := "1.1"

/-- Yaml.stringify (src/yaml.ts lines 44-48): map each input to `'\n'` when
it is `undefined` and to the library serialization otherwise, then join with
`'---\n'`. -/
def Yaml.stringify (docs : List Value) : String :=
  joinSep "---\n" (docs.map fun r =>
    match r with
    | .undef => "\n"
    | _ => YamlLib.stringifyDoc yamlSchemaVersion true r)

/-- Yaml.formatObjects (src/yaml.ts lines 21-23), the deprecated entry point:
`return this.stringify(...docs)`. -/
def Yaml.formatObjects (docs : List Value) : String :=
  Yaml.stringify docs

/-- The per-document text emitted by Yaml.stringify for one input value:
the blank-line placeholder for `undefined`, the library serialization
otherwise. -/
def docTextOf (r : Value) : String :=
  match r with
  | .undef => "\n"
  | _ => YamlLib.stringifyDoc yamlSchemaVersion true r

/-- Errors of the modelled yaml library parser. -/
inductive ParseError where
  | depth
  | unexpectedEnd
  | unterminated
  | badSep
  | keyExpected
  | badToken
  | docEnd

/-- Characters that terminate an unquoted flow scalar token. -/
def isDelim (c : Char) : Bool := c == ',' || c == ']' || c == '}' || c == '\n'

/-- Numeric value of a digit character. -/
def d2n (c : Char) : Nat := c.toNat - 48

/-- Decimal digit test. -/
def isDigitCh (c : Char) : Bool := '0' ≤ c && c ≤ '9'

/-- Octal digit test. -/
def isOctCh (c : Char) : Bool := '0' ≤ c && c ≤ '7'

/-- Does the token start with the character '0'. -/
def leadZero : List Char → Bool
  | [] => false
  | c :: _ => c == '0'

/-- Value of a decimal digit string. -/
def decVal (ds : List Char) : Nat := ds.foldl (fun a c => 10 * a + d2n c) 0

/-- Value of an octal digit string. -/
def octVal (ds : List Char) : Nat := ds.foldl (fun a c => 8 * a + d2n c) 0

/-- Modelled from the spec: numeric resolution of an unquoted digit token
under the given schema version (§3): under version 1.1 a multi-digit token
with a leading zero is octal (so 0775 resolves to 509), and a leading-zero
token with a non-octal digit is not a number at all; otherwise the token is
decimal. -/
def natOfDigits (version : String) (ds : List Char) : Option Nat :=
  if ds.isEmpty then none
  else if ds.all isDigitCh then
    if version == "1.1" && leadZero ds && decide (1 < ds.length) then
      if ds.all isOctCh then some (octVal ds) else none
    else some (decVal ds)
  else none

/-- Integer resolution of an unquoted token: an optional leading minus sign
followed by digits resolved by natOfDigits. -/
def intOfTok (version : String) (tok : List Char) : Option Int :=
  if tok.head? = some '-' then (natOfDigits version tok.tail).map fun n => -(n : Int)
  else (natOfDigits version tok).map fun n => (n : Int)

/-- Modelled from the spec: plain-scalar resolution of the external yaml
library — null / true / false literals, then numbers under the schema
version, and any other plain token is a string. -/
def resolveScalar (version : String) (tok : List Char) : Except ParseError Value :=
  if tok = ['n', 'u', 'l', 'l'] then .ok .null
  else if tok = ['t', 'r', 'u', 'e'] then .ok (.bool true)
  else if tok = ['f', 'a', 'l', 's', 'e'] then .ok (.bool false)
  else if tok.isEmpty then .error .badToken
  else
    match intOfTok version tok with
    | some i => .ok (.num i)
    | none => .ok (.str (String.mk tok))

/-- Unescaping of the character following a backslash in a quoted scalar. -/
def unescChar (c : Char) : Char := if c = 'n' then '\n' else c

/-- Parse the remainder of a double-quoted scalar (the opening quote has been
consumed), returning the unescaped contents and the input after the closing
quote. -/
def parseQuoted : List Char → Except ParseError (List Char × List Char)
  | [] => .error .unterminated
  | c :: rest =>
    if c = '\"' then .ok ([], rest)
    else if c = '\\' then
      match rest with
      | [] => .error .unterminated
      | d :: rest2 =>
        match parseQuoted rest2 with
        | .error e => .error e
        | .ok (s, r) => .ok (unescChar d :: s, r)
    else
      match parseQuoted rest with
      | .error e => .error e
      | .ok (s, r) => .ok (c :: s, r)

mutual
/-- Modelled from the spec: the recursive flow-value parser of the external
yaml library, with a fuel bound on nesting.  parseVal parses one value;
parseElems parses the non-empty element list of a sequence up to and
including the closing bracket; parseEntries parses the non-empty entry list
of a mapping up to and including the closing brace. -/
def parseVal (version : String) : Nat → List Char → Except ParseError (Value × List Char)
  | 0, _ => .error .depth
  | Nat.succ n, cs =>
    match cs with
    | [] => .error .unexpectedEnd
    | c :: rest =>
      if c = '\"' then
        match parseQuoted rest with
        | .error e => .error e
        | .ok (s, r) => .ok (.str (String.mk s), r)
      else if c = '[' then
        if rest.head? = some ']' then .ok (.arr .nil, rest.tail)
        else
          match parseElems version n rest with
          | .error e => .error e
          | .ok (xs, r) => .ok (.arr xs, r)
      else if c = '{' then
        if rest.head? = some '}' then .ok (.obj .nil, rest.tail)
        else
          match parseEntries version n rest with
          | .error e => .error e
          | .ok (kvs, r) => .ok (.obj kvs, r)
      else
        match resolveScalar version ((c :: rest).takeWhile fun a => !isDelim a) with
        | .error e => .error e
        | .ok v => .ok (v, (c :: rest).dropWhile fun a => !isDelim a)
def parseElems (version : String) : Nat → List Char → Except ParseError (ValueList × List Char)
  | 0, _ => .error .depth
  | Nat.succ n, cs =>
    match parseVal version n cs with
    | .error e => .error e
    | .ok (v, r) =>
      match r with
      | ']' :: r2 => .ok (.cons v .nil, r2)
      | ',' :: ' ' :: r2 =>
        match parseElems version n r2 with
        | .error e => .error e
        | .ok (vs, r3) => .ok (.cons v vs, r3)
      | _ => .error .badSep
def parseEntries (version : String) : Nat → List Char → Except ParseError (ObjList × List Char)
  | 0, _ => .error .depth
  | Nat.succ n, cs =>
    match cs with
    | [] => .error .unexpectedEnd
    | c :: rest =>
      if c = '\"' then
        match parseQuoted rest with
        | .error e => .error e
        | .ok (k, r) =>
          match r with
          | ':' :: ' ' :: r2 =>
            match parseVal version n r2 with
            | .error e => .error e
            | .ok (v, r3) =>
              match r3 with
              | '}' :: r4 => .ok (.cons (String.mk k) v .nil, r4)
              | ',' :: ' ' :: r4 =>
                match parseEntries version n r4 with
                | .error e => .error e
                | .ok (kvs, r5) => .ok (.cons (String.mk k) v kvs, r5)
              | _ => .error .badSep
          | _ => .error .badSep
      else .error .keyExpected
end

/-- Modelled from the spec: parse one document of a multi-document stream —
a document consisting of a blank line yields the undefined marker (§6),
otherwise one flow value terminated by a newline. -/
def parseOneDoc (version : String) (cs : List Char) : Except ParseError (Value × List Char) :=
  match cs with
  | [] => .error .unexpectedEnd
  | c :: rest =>
    if c = '\n' then .ok (.undef, rest)
    else
      match parseVal version (rest.length + 1) (c :: rest) with
      | .error e => .error e
      | .ok (v, r) =>
        match r with
        | '\n' :: r2 => .ok (v, r2)
        | _ => .error .docEnd

/-- Modelled from the spec: parse a non-empty sequence of documents separated
by the document separator line. -/
def parseDocs (version : String) : Nat → List Char → Except ParseError (List Value)
  | 0, _ => .error .depth
  | Nat.succ n, cs =>
    match parseOneDoc version cs with
    | .error e => .error e
    | .ok (v, rest) =>
      match rest with
      | [] => .ok [v]
      | '-' :: '-' :: '-' :: '\n' :: rest2 =>
        match parseDocs version n rest2 with
        | .error e => .error e
        | .ok vs => .ok (v :: vs)
      | _ => .error .badSep

/-- Modelled from the spec: the external yaml library's multi-document
parser, `YAML.parseAllDocuments(body, { version })` followed by per-document
`toJSON()` (§4.4): the whole stream is parsed, or the call fails with a
parse error and no partial results. -/
def YamlLib.parseAllDocuments (version : String) (body : String) : Except ParseError (List Value) :=
  if body = "" then .ok []
  else parseDocs version (body.length + 1) body.data

/-- Outcome of the fetch collaborator subprocess: its exit code and the bytes
it wrote to standard output. -/
structure ExecResult where
  exitCode : Nat
  stdout : String

/-- Fetch failures (spec §7 error kind b). -/
inductive FetchError where
  | nonzeroExit
  | maxBufferExceeded

/-- Failures of Yaml.load: a fetch failure or a parse failure. -/
inductive LoadError where
  | fetch (e : FetchError)
  | parse (e : ParseError)

/-- The fixed output cap of the fetch subprocess (src/yaml.ts line 7). -/
def MAX_DOWNLOAD_BUFFER : Nat := 10 * 1024 * 1024

/-- Modelled from the spec: Node's execFileSync with a maxBuffer option —
a nonzero exit of the child fails the call, output beyond maxBuffer bytes
fails the call rather than truncating, and otherwise the entire standard
output is returned (§4.5). -/
def execFileSync (maxBuffer : Nat) (r : ExecResult) : Except FetchError String :=
  if r.exitCode ≠ 0 then .error .nonzeroExit
  else if maxBuffer < r.stdout.utf8ByteSize then .error .maxBufferExceeded
  else .ok r.stdout

/-- loadurl (src/yaml.ts lines 105-111): run the fetch collaborator and
return its standard output, with maxBuffer = MAX_DOWNLOAD_BUFFER.  The
subprocess outcome is the explicit input of the model. -/
def loadurl (r : ExecResult) : Except FetchError String :=
  execFileSync MAX_DOWNLOAD_BUFFER r

/-- Yaml.load (src/yaml.ts lines 72-91): fetch the body via loadurl, parse
it with the fixed schema version, and keep the non-empty documents.  Any
fetch or parse failure propagates; there is no catch in the source. -/
def Yaml.load (fetchOutcome : ExecResult) : Except LoadError (List Value) :=
  match loadurl fetchOutcome with
  | .error e => .error (.fetch e)
  | .ok body =>
    match YamlLib.parseAllDocuments yamlSchemaVersion body with
    | .error e => .error (.parse e)
    | .ok objs => .ok (Yaml.emptyFilterLoop objs)

/-- The parse-and-filter phase of Yaml.load, as a function of the raw body
text (src/yaml.ts lines 75-90). -/
def Yaml.loadBody (body : String) : Except ParseError (List Value) :=
  match YamlLib.parseAllDocuments yamlSchemaVersion body with
  | .error e => .error e
  | .ok objs => .ok (Yaml.emptyFilterLoop objs)

mutual
/-- Structural size of a value, used as the fuel bound of the parser. -/
def vsize : Value → Nat
  | .arr xs => esize xs + 1
  | .obj kvs => osize kvs + 1
  | _ => 1
def esize : ValueList → Nat
  | .nil => 0
  | .cons v vs => vsize v + esize vs + 1
def osize : ObjList → Nat
  | .nil => 0
  | .cons _ v kvs => vsize v + osize kvs + 1
end

mutual
/-- A value is fully defined when the undefined marker occurs nowhere in it. -/
def vdef : Value → Bool
  | .undef => false
  | .arr xs => edef xs
  | .obj kvs => odef kvs
  | _ => true
def edef : ValueList → Bool
  | .nil => true
  | .cons v vs => vdef v && edef vs
def odef : ObjList → Bool
  | .nil => true
  | .cons _ v kvs => vdef v && odef kvs
end

/-- Is the value the undefined marker. -/
def isUndefB : Value → Bool
  | .undef => true
  | _ => false

/-- Does the mapping contain an entry with the given key whose value is the
explicit undefined marker. -/
def hasUndefEntry (k : String) : ObjList → Bool
  | .nil => false
  | .cons k2 v rest => (k2 == k && isUndefB v) || hasUndefEntry k rest

/-- The text a flow item contributes after the first item of its container:
nothing when it is last, otherwise a comma-space followed by the rest. -/
def commaTail : List (List Char) → List Char
  | [] => []
  | e :: es => ',' :: ' ' :: joinComma (e :: es)

/-- Is the input either exhausted or positioned at a token delimiter. -/
def headDelim : List Char → Bool
  | [] => true
  | c :: _ => isDelim c

/-- A top-level document participates in the lossless round trip when the
undefined marker occurs nowhere in it and it is not classified empty. -/
def roundTrippable (v : Value) : Bool := vdef v && !isEmptyCheck v

/-! Helper lemmas about the embedded definitions. -/

theorem foldl_filter_aux (objs : List Value) :
    ∀ acc : List Value,
      objs.foldl (fun result obj => if isEmptyCheck obj then result else result ++ [obj]) acc =
        acc ++ objs.filter (fun v => !isEmptyCheck v) := by
  induction objs with
  | nil => intro acc; simp
  | cons v vs ih =>
    intro acc
    by_cases h : isEmptyCheck v
    · simp [List.foldl_cons, h, List.filter_cons, ih]
    · simp [List.foldl_cons, h, List.filter_cons, ih]

theorem emptyFilterLoop_eq_filter (objs : List Value) :
    Yaml.emptyFilterLoop objs = objs.filter (fun v => !isEmptyCheck v) := by
  unfold Yaml.emptyFilterLoop
  simpa using foldl_filter_aux objs []

theorem isEmptyCheck_eq_spec (v : Value) : isEmptyCheck v = isEmptySpec v := by
  cases v with
  | undef => rfl
  | null => rfl
  | bool b => rfl
  | num i => rfl
  | str s => rfl
  | arr xs => cases xs <;> rfl
  | obj kvs => cases kvs <;> rfl

theorem joinSep_cons (sep t : String) (ts : List String) (h : ts ≠ []) :
    joinSep sep (t :: ts) = t ++ sep ++ joinSep sep ts := by
  cases ts with
  | nil => exact absurd rfl h
  | cons a l => rfl

theorem joinComma_cons (e : List Char) (es : List (List Char)) :
    joinComma (e :: es) = e ++ commaTail es := by
  cases es <;> simp [joinComma, commaTail]

theorem token_split (xs ys : List Char) (h1 : xs.all (fun a => !isDelim a) = true)
    (h2 : headDelim ys = true) :
    (xs ++ ys).takeWhile (fun a => !isDelim a) = xs ∧
      (xs ++ ys).dropWhile (fun a => !isDelim a) = ys := by
  induction xs with
  | nil =>
    simp only [List.nil_append]
    cases ys with
    | nil => simp
    | cons c cs =>
      have hc : isDelim c = true := h2
      constructor
      · simp [List.takeWhile_cons, hc]
      · simp [List.dropWhile_cons, hc]
  | cons x xs ih =>
    simp only [List.all_cons, Bool.and_eq_true] at h1
    obtain ⟨hx, hxs⟩ := h1
    have hrec := ih hxs
    constructor
    · simp [List.takeWhile_cons, hx, hrec.1]
    · simp [List.dropWhile_cons, hx, hrec.2]

theorem digit_not_delim (c : Char) (h : isDigitCh c = true) : isDelim c = false := by
  by_contra hne
  have hd : isDelim c = true := by
    cases hv : isDelim c
    · exact absurd hv hne
    · rfl
  simp only [isDelim, Bool.or_eq_true, beq_iff_eq] at hd
  rcases hd with ((rfl | rfl) | rfl) | rfl <;> exact absurd h (by decide)

theorem d2n_digitCh (k : Nat) (h : k < 10) : d2n (digitCh k) = k := by
  interval_cases k <;> decide

theorem digitCh_isDigit (k : Nat) (h : k < 10) : isDigitCh (digitCh k) = true := by
  interval_cases k <;> decide

theorem digitCh_ne_zero (k : Nat) (h1 : k < 10) (h2 : k ≠ 0) : (digitCh k == '0') = false := by
  interval_cases k
  · exact absurd rfl h2
  all_goals decide

theorem toDecFuel_congr (n : Nat) : ∀ f g, n < f → n < g → toDecFuel f n = toDecFuel g n := by
  induction n using Nat.strong_induction_on with
  | _ n ih =>
    intro f g hf hg
    obtain ⟨f2, rfl⟩ : ∃ f2, f = f2 + 1 := ⟨f - 1, by omega⟩
    obtain ⟨g2, rfl⟩ : ∃ g2, g = g2 + 1 := ⟨g - 1, by omega⟩
    by_cases h : n < 10
    · simp [toDecFuel, h]
    · simp only [toDecFuel, if_neg h]
      rw [ih (n / 10) (by omega) f2 g2 (by omega) (by omega)]

theorem toDec_eq (n : Nat) :
    toDec n = if n < 10 then [digitCh n] else toDec (n / 10) ++ [digitCh (n % 10)] := by
  show toDecFuel (n + 1) n = _
  by_cases h : n < 10
  · simp [toDecFuel, h]
  · simp only [toDecFuel, if_neg h]
    rw [toDecFuel_congr (n / 10) n (n / 10 + 1) (by omega) (by omega)]
    rfl

theorem toDec_ne_nil (n : Nat) : toDec n ≠ [] := by
  rw [toDec_eq]
  by_cases h : n < 10 <;> simp [h]

theorem toDec_all_digits (n : Nat) : (toDec n).all isDigitCh = true := by
  induction n using Nat.strong_induction_on with
  | _ n ih =>
    rw [toDec_eq]
    by_cases h : n < 10
    · simp [h, digitCh_isDigit n h]
    · rw [if_neg h]
      simp [List.all_append, ih (n / 10) (by omega), digitCh_isDigit (n % 10) (by omega)]

theorem leadZero_append (xs ys : List Char) (h : xs ≠ []) :
    leadZero (xs ++ ys) = leadZero xs := by
  cases xs with
  | nil => exact absurd rfl h
  | cons c cs => rfl

theorem toDec_leadZero (n : Nat) (h : 1 ≤ n) : leadZero (toDec n) = false := by
  induction n using Nat.strong_induction_on with
  | _ n ih =>
    rw [toDec_eq]
    by_cases h10 : n < 10
    · rw [if_pos h10]
      show (digitCh n == '0') = false
      exact digitCh_ne_zero n h10 (by omega)
    · rw [if_neg h10, leadZero_append _ _ (toDec_ne_nil _)]
      exact ih (n / 10) (by omega) (by omega)

theorem foldl_toDec (n : Nat) :
    ∀ a : Nat, (toDec n).foldl (fun x c => 10 * x + d2n c) a =
      a * 10 ^ (toDec n).length + n := by
  induction n using Nat.strong_induction_on with
  | _ n ih =>
    intro a
    rw [toDec_eq]
    by_cases h : n < 10
    · simp [h, d2n_digitCh n h]
      omega
    · rw [if_neg h, List.foldl_append, List.length_append]
      simp only [List.foldl_cons, List.foldl_nil, List.length_cons, List.length_nil]
      rw [ih (n / 10) (by omega) a, d2n_digitCh (n % 10) (by omega)]
      rw [Nat.zero_add, pow_succ, ← mul_assoc]
      have hdm : 10 * (n / 10) + n % 10 = n := Nat.div_add_mod n 10
      generalize a * 10 ^ (toDec (n / 10)).length = M
      omega

theorem decVal_toDec (n : Nat) : decVal (toDec n) = n := by
  unfold decVal
  rw [foldl_toDec n 0]
  simp

theorem toDec_cons (n : Nat) :
    ∃ c cs, toDec n = c :: cs ∧ isDigitCh c = true := by
  cases h : toDec n with
  | nil => exact absurd h (toDec_ne_nil n)
  | cons c cs =>
    refine ⟨c, cs, rfl, ?_⟩
    have hall := toDec_all_digits n
    rw [h] at hall
    simp only [List.all_cons, Bool.and_eq_true] at hall
    exact hall.1

theorem natOfDigits_toDec (n : Nat) : natOfDigits yamlSchemaVersion (toDec n) = some n := by
  by_cases hn : n = 0
  · subst hn; rfl
  · obtain ⟨c, cs, hcc, _⟩ := toDec_cons n
    unfold natOfDigits
    rw [toDec_leadZero n (by omega)]
    rw [hcc]
    simp only [List.isEmpty_cons, Bool.false_eq_true, if_false]
    rw [← hcc, toDec_all_digits n]
    simp [decVal_toDec n]

theorem intOfTok_renderInt (i : Int) : intOfTok yamlSchemaVersion (renderInt i) = some i := by
  unfold renderInt intOfTok
  by_cases h : i < 0
  · rw [if_pos h]
    simp only [List.head?_cons, List.tail_cons, if_pos rfl]
    rw [natOfDigits_toDec]
    show some (-(i.natAbs : Int)) = some i
    congr 1
    omega
  · rw [if_neg h]
    obtain ⟨c, cs, hcc, hdig⟩ := toDec_cons i.natAbs
    have hne : (toDec i.natAbs).head? ≠ some '-' := by
      rw [hcc]
      simp only [List.head?_cons, ne_eq, Option.some.injEq]
      intro heq
      rw [heq] at hdig
      exact absurd hdig (by decide)
    rw [if_neg hne, natOfDigits_toDec]
    show some ((i.natAbs : Nat) : Int) = some i
    congr 1
    omega

theorem resolveScalar_renderInt (i : Int) :
    resolveScalar yamlSchemaVersion (renderInt i) = .ok (.num i) := by
  have hshape : ∃ c cs, renderInt i = c :: cs ∧ (isDigitCh c = true ∨ c = '-') := by
    unfold renderInt
    by_cases h : i < 0
    · exact ⟨'-', toDec i.natAbs, by rw [if_pos h], Or.inr rfl⟩
    · obtain ⟨c, cs, hcc, hdig⟩ := toDec_cons i.natAbs
      exact ⟨c, cs, by rw [if_neg h, hcc], Or.inl hdig⟩
  obtain ⟨c, cs, hcc, hc⟩ := hshape
  have hne : ∀ d : Char, isDigitCh d = false → d ≠ '-' → renderInt i ≠ d :: cs → True := fun _ _ _ _ => trivial
  have hhead : ∀ (d : Char) (l : List Char), isDigitCh d = false → d ≠ '-' →
      renderInt i ≠ d :: l := by
    intro d l hd1 hd2 he
    rw [hcc] at he
    have hcd : c = d := (List.cons.injEq _ _ _ _ ▸ he).1
    cases hc with
    | inl h1 => rw [hcd, hd1] at h1; cases h1
    | inr h1 => rw [hcd] at h1; exact hd2 h1
  unfold resolveScalar
  rw [if_neg (hhead 'n' ['u', 'l', 'l'] (by decide) (by decide)),
    if_neg (hhead 't' ['r', 'u', 'e'] (by decide) (by decide)),
    if_neg (hhead 'f' ['a', 'l', 's', 'e'] (by decide) (by decide))]
  have hemp : (renderInt i).isEmpty = false := by rw [hcc]; rfl
  rw [hemp]
  simp only [Bool.false_eq_true, if_false]
  rw [intOfTok_renderInt]

theorem parseQuoted_esc (cs rest : List Char) :
    parseQuoted (escList cs ++ '\"' :: rest) = .ok (cs, rest) := by
  induction cs with
  | nil =>
    show parseQuoted ('\"' :: rest) = .ok ([], rest)
    rw [parseQuoted.eq_def]
    simp
  | cons c cs ih =>
    by_cases h1 : c = '\"'
    · subst h1
      rw [show escList ('\"' :: cs) ++ '\"' :: rest =
          '\\' :: '\"' :: (escList cs ++ '\"' :: rest) from by simp [escList, escChar]]
      rw [parseQuoted.eq_def]
      simp [ih, unescChar]
    · by_cases h2 : c = '\\'
      · subst h2
        rw [show escList ('\\' :: cs) ++ '\"' :: rest =
            '\\' :: '\\' :: (escList cs ++ '\"' :: rest) from by simp [escList, escChar]]
        rw [parseQuoted.eq_def]
        simp [ih, unescChar]
      · rw [show escList (c :: cs) ++ '\"' :: rest = c :: (escList cs ++ '\"' :: rest) from by
          simp [escList, escChar, h1, h2]]
        rw [parseQuoted.eq_def]
        simp [h1, h2, ih]

theorem renderVal_head (v : Value) :
    ∃ c cs, renderVal true v = c :: cs ∧ isDelim c = false := by
  cases v with
  | undef => exact ⟨'n', _, rfl, by decide⟩
  | null => exact ⟨'n', _, rfl, by decide⟩
  | bool b =>
    cases b with
    | false => exact ⟨'f', _, rfl, by decide⟩
    | true => exact ⟨'t', _, rfl, by decide⟩
  | num i =>
    show ∃ c cs, renderInt i = c :: cs ∧ isDelim c = false
    unfold renderInt
    by_cases h : i < 0
    · exact ⟨'-', _, by rw [if_pos h], by decide⟩
    · obtain ⟨c, cs, hcc, hdig⟩ := toDec_cons i.natAbs
      exact ⟨c, cs, by rw [if_neg h, hcc], digit_not_delim c hdig⟩
  | str s => exact ⟨'\"', _, rfl, by decide⟩
  | arr xs => exact ⟨'[', _, rfl, by decide⟩
  | obj kvs => exact ⟨'{', _, rfl, by decide⟩

theorem renderInt_ne_nil (i : Int) : renderInt i ≠ [] := by
  unfold renderInt
  by_cases h : i < 0
  · rw [if_pos h]; simp
  · rw [if_neg h]; exact toDec_ne_nil _

theorem sizeLen (k : Nat) :
    (∀ v, vsize v ≤ k → vsize v ≤ (renderVal true v).length) ∧
    (∀ xs, esize xs ≤ k → esize xs ≤ (joinComma (elemsList true xs)).length + 1) ∧
    (∀ kvs, osize kvs ≤ k → osize kvs ≤ (joinComma (entriesList true kvs)).length + 1) := by
  induction k using Nat.strong_induction_on with
  | _ k ih =>
    refine ⟨?_, ?_, ?_⟩
    · intro v hv
      cases v with
      | undef => simp [vsize, renderVal]
      | null => simp [vsize, renderVal]
      | bool b => cases b <;> simp [vsize, renderVal]
      | num i =>
        have h2 : 0 < (renderInt i).length := List.length_pos.mpr (renderInt_ne_nil i)
        simpa [vsize, renderVal] using h2
      | str s =>
        simp [vsize, renderVal, List.length_cons, List.length_append]
      | arr xs =>
        cases xs with
        | nil => simp [vsize, esize, renderVal, elemsList, joinComma]
        | cons v vs =>
          simp only [vsize] at hv
          have h2 := (ih (esize (ValueList.cons v vs)) (by omega)).2.1
            (ValueList.cons v vs) le_rfl
          simp only [vsize, renderVal, List.length_cons, List.length_append,
            List.length_nil]
          omega
      | obj kvs =>
        cases kvs with
        | nil => simp [vsize, osize, renderVal, entriesList, joinComma]
        | cons key v vs =>
          simp only [vsize] at hv
          have h2 := (ih (osize (ObjList.cons key v vs)) (by omega)).2.2
            (ObjList.cons key v vs) le_rfl
          simp only [vsize, renderVal, List.length_cons, List.length_append,
            List.length_nil]
          omega
    · intro xs hxs
      cases xs with
      | nil => simp [esize]
      | cons v vs =>
        simp only [esize] at hxs
        have hv := (ih (vsize v) (by omega)).1 v le_rfl
        cases vs with
        | nil =>
          simp only [esize, elemsList, joinComma]
          omega
        | cons v2 vs2 =>
          have h2 := (ih (esize (ValueList.cons v2 vs2)) (by simp only [esize] at hxs ⊢; omega)).2.1
            (ValueList.cons v2 vs2) le_rfl
          simp only [esize, elemsList, joinComma, List.length_append, List.length_cons] at h2 ⊢
          omega
    · intro kvs hkvs
      cases kvs with
      | nil => simp [osize]
      | cons key v vs =>
        simp only [osize] at hkvs
        have hv := (ih (vsize v) (by omega)).1 v le_rfl
        cases vs with
        | nil =>
          simp only [osize, entriesList, joinComma, keyChars, List.length_append,
            List.length_cons]
          omega
        | cons k2 v2 vs2 =>
          have h2 := (ih (osize (ObjList.cons k2 v2 vs2)) (by simp only [osize] at hkvs ⊢; omega)).2.2
            (ObjList.cons k2 v2 vs2) le_rfl
          simp only [osize, entriesList, joinComma, keyChars, List.length_append,
            List.length_cons] at h2 ⊢
          omega

theorem vsize_le_renderLen (v : Value) : vsize v ≤ (renderVal true v).length :=
  (sizeLen (vsize v)).1 v le_rfl

theorem vsize_pos (v : Value) : 1 ≤ vsize v := by
  cases v <;> simp [vsize]

theorem renderInt_shape (i : Int) :
    ∃ c cs, renderInt i = c :: cs ∧ (isDigitCh c = true ∨ c = '-') := by
  unfold renderInt
  by_cases h : i < 0
  · exact ⟨'-', toDec i.natAbs, by rw [if_pos h], Or.inr rfl⟩
  · obtain ⟨c, cs, hcc, hdig⟩ := toDec_cons i.natAbs
    exact ⟨c, cs, by rw [if_neg h, hcc], Or.inl hdig⟩

theorem parseVal_scalar (m : Nat) (c : Char) (cs rest : List Char) (v : Value)
    (hc1 : ¬ c = '\"') (hc2 : ¬ c = '[') (hc3 : ¬ c = '{')
    (hall : (c :: cs).all (fun a => !isDelim a) = true)
    (hrest : headDelim rest = true)
    (hres : resolveScalar yamlSchemaVersion (c :: cs) = .ok v) :
    parseVal yamlSchemaVersion (m + 1) (c :: (cs ++ rest)) = .ok (v, rest) := by
  have hsplit := token_split (c :: cs) rest hall hrest
  simp only [List.cons_append] at hsplit
  rw [parseVal.eq_def]
  simp only [if_neg hc1, if_neg hc2, if_neg hc3]
  rw [hsplit.1, hsplit.2, hres]

theorem renderInt_notDelim (i : Int) :
    (renderInt i).all (fun a => !isDelim a) = true := by
  have hdec : ∀ n : Nat, (toDec n).all (fun a => !isDelim a) = true := by
    intro n
    rw [List.all_eq_true]
    intro x hx
    have hall := toDec_all_digits n
    rw [List.all_eq_true] at hall
    simp [digit_not_delim x (hall x hx)]
  unfold renderInt
  by_cases h : i < 0
  · rw [if_pos h]
    simp only [List.all_cons, Bool.and_eq_true]
    exact ⟨by decide, hdec i.natAbs⟩
  · rw [if_neg h]
    exact hdec i.natAbs

theorem roundtrip (n : Nat) :
    (∀ v rest, vdef v = true → vsize v ≤ n → headDelim rest = true →
      parseVal yamlSchemaVersion n (renderVal true v ++ rest) = .ok (v, rest)) ∧
    (∀ xs rest, xs ≠ ValueList.nil → edef xs = true → esize xs ≤ n →
      parseElems yamlSchemaVersion n (joinComma (elemsList true xs) ++ ']' :: rest) =
        .ok (xs, rest)) ∧
    (∀ kvs rest, kvs ≠ ObjList.nil → odef kvs = true → osize kvs ≤ n →
      parseEntries yamlSchemaVersion n (joinComma (entriesList true kvs) ++ '}' :: rest) =
        .ok (kvs, rest)) := by
  induction n using Nat.strong_induction_on with
  | _ n ih =>
    refine ⟨?_, ?_, ?_⟩
    · intro v rest hdef hsz hrest
      obtain ⟨m, rfl⟩ : ∃ m, n = m + 1 := ⟨n - 1, by have := vsize_pos v; omega⟩
      cases v with
      | undef => simp [vdef] at hdef
      | null =>
        have h := parseVal_scalar m 'n' "ull".data rest .null
          (by decide) (by decide) (by decide) (by decide) hrest rfl
        rw [show renderVal true Value.null ++ rest = 'n' :: ("ull".data ++ rest) from rfl]
        exact h
      | bool b =>
        cases b with
        | true =>
          have h := parseVal_scalar m 't' "rue".data rest (.bool true)
            (by decide) (by decide) (by decide) (by decide) hrest rfl
          rw [show renderVal true (Value.bool true) ++ rest =
            't' :: ("rue".data ++ rest) from rfl]
          exact h
        | false =>
          have h := parseVal_scalar m 'f' "alse".data rest (.bool false)
            (by decide) (by decide) (by decide) (by decide) hrest rfl
          rw [show renderVal true (Value.bool false) ++ rest =
            'f' :: ("alse".data ++ rest) from rfl]
          exact h
      | num i =>
        obtain ⟨c, cs, hcc, hshape⟩ := renderInt_shape i
        have hne : ∀ d : Char, isDigitCh d = false → d ≠ '-' → ¬ c = d := by
          intro d hd1 hd2 he
          cases hshape with
          | inl h1 => rw [he] at h1; rw [h1] at hd1; cases hd1
          | inr h1 => rw [he] at h1; exact hd2 h1
        have hall : (c :: cs).all (fun a => !isDelim a) = true := by
          rw [← hcc]; exact renderInt_notDelim i
        have hres : resolveScalar yamlSchemaVersion (c :: cs) = .ok (.num i) := by
          rw [← hcc]; exact resolveScalar_renderInt i
        have h := parseVal_scalar m c cs rest (.num i)
          (hne '\"' (by decide) (by decide)) (hne '[' (by decide) (by decide))
          (hne '{' (by decide) (by decide)) hall hrest hres
        rw [show renderVal true (Value.num i) ++ rest = c :: (cs ++ rest) from by
          rw [show renderVal true (Value.num i) = renderInt i from rfl, hcc]; simp]
        exact h
      | str s =>
        have h : parseVal yamlSchemaVersion (m + 1)
            ('\"' :: (escList s.data ++ '\"' :: rest)) =
            .ok (.str (String.mk s.data), rest) := by
          rw [parseVal.eq_def]
          simp [parseQuoted_esc]
        rw [show renderVal true (Value.str s) ++ rest =
            '\"' :: (escList s.data ++ '\"' :: rest) from by simp [renderVal]]
        exact h
      | arr xs =>
        cases xs with
        | nil =>
          rw [show renderVal true (Value.arr .nil) ++ rest = '[' :: ']' :: rest from by
            simp [renderVal, elemsList, joinComma]]
          rw [parseVal.eq_def]
          simp
        | cons v vs =>
          obtain ⟨c, cs, hcc, hcd⟩ := renderVal_head v
          have hJ : joinComma (elemsList true (ValueList.cons v vs)) =
              c :: (cs ++ commaTail (elemsList true vs)) := by
            rw [show elemsList true (ValueList.cons v vs) =
              renderVal true v :: elemsList true vs from rfl, joinComma_cons, hcc]
            simp
          simp only [vdef] at hdef
          simp only [vsize] at hsz
          have hE := (ih m (by omega)).2.1 (ValueList.cons v vs) rest
            (by simp) hdef (by omega)
          rw [show renderVal true (Value.arr (ValueList.cons v vs)) ++ rest =
              '[' :: (joinComma (elemsList true (ValueList.cons v vs)) ++ ']' :: rest) from by
            simp [renderVal]]
          rw [parseVal.eq_def]
          simp [hE]
          constructor
          · rw [hJ]
            simp only [List.head?_cons, Option.some.injEq]
            intro he
            rw [he] at hcd
            exact absurd hcd (by decide)
          · rw [hJ]
            simp
      | obj kvs =>
        cases kvs with
        | nil =>
          rw [show renderVal true (Value.obj .nil) ++ rest = '{' :: '}' :: rest from by
            simp [renderVal, entriesList, joinComma]]
          rw [parseVal.eq_def]
          simp
        | cons key v vs =>
          have hJ : joinComma (entriesList true (ObjList.cons key v vs)) =
              '\"' :: (escList key.data ++ '\"' :: ':' :: ' ' :: renderVal true v ++
                commaTail (entriesList true vs)) := by
            rw [show entriesList true (ObjList.cons key v vs) =
              (keyChars key ++ ':' :: ' ' :: renderVal true v) :: entriesList true vs from rfl,
              joinComma_cons, keyChars]
            simp
          simp only [vdef] at hdef
          simp only [vsize] at hsz
          have hE := (ih m (by omega)).2.2 (ObjList.cons key v vs) rest
            (by simp) hdef (by omega)
          rw [show renderVal true (Value.obj (ObjList.cons key v vs)) ++ rest =
              '{' :: (joinComma (entriesList true (ObjList.cons key v vs)) ++ '}' :: rest) from by
            simp [renderVal]]
          rw [parseVal.eq_def]
          simp [hE]
          constructor
          · rw [hJ]
            simp
          · rw [hJ]
            simp
    · intro xs rest hne hedef hesz
      cases xs with
      | nil => exact absurd rfl hne
      | cons v vs =>
        simp only [esize] at hesz
        obtain ⟨m, rfl⟩ : ∃ m, n = m + 1 := ⟨n - 1, by omega⟩
        simp only [edef, Bool.and_eq_true] at hedef
        have hsplit : joinComma (elemsList true (ValueList.cons v vs)) ++ ']' :: rest =
            renderVal true v ++ (commaTail (elemsList true vs) ++ ']' :: rest) := by
          rw [show elemsList true (ValueList.cons v vs) =
            renderVal true v :: elemsList true vs from rfl, joinComma_cons]
          simp [List.append_assoc]
        rw [hsplit, parseElems.eq_def]
        cases vs with
        | nil =>
          rw [show commaTail (elemsList true ValueList.nil) = [] from rfl]
          simp only [List.nil_append]
          have hv := (ih m (by omega)).1 v (']' :: rest) hedef.1 (by omega) rfl
          rw [hv]
          simp
        | cons v2 vs2 =>
          rw [show commaTail (elemsList true (ValueList.cons v2 vs2)) =
              ',' :: ' ' :: joinComma (elemsList true (ValueList.cons v2 vs2)) from by
            rw [show elemsList true (ValueList.cons v2 vs2) =
              renderVal true v2 :: elemsList true vs2 from rfl]
            rfl]
          simp only [List.cons_append]
          have hv := (ih m (by omega)).1 v
            (',' :: ' ' :: (joinComma (elemsList true (ValueList.cons v2 vs2)) ++ ']' :: rest))
            hedef.1 (by omega) rfl
          have hE := (ih m (by omega)).2.1 (ValueList.cons v2 vs2) rest
            (by simp) hedef.2 (by omega)
          rw [hv]
          simp [hE]
    · intro kvs rest hne hodef hosz
      cases kvs with
      | nil => exact absurd rfl hne
      | cons key v vs =>
        simp only [osize] at hosz
        obtain ⟨m, rfl⟩ : ∃ m, n = m + 1 := ⟨n - 1, by omega⟩
        simp only [odef, Bool.and_eq_true] at hodef
        have hsplit : joinComma (entriesList true (ObjList.cons key v vs)) ++ '}' :: rest =
            '\"' :: (escList key.data ++ '\"' ::
              (':' :: ' ' :: (renderVal true v ++
                (commaTail (entriesList true vs) ++ '}' :: rest)))) := by
          rw [show entriesList true (ObjList.cons key v vs) =
            (keyChars key ++ ':' :: ' ' :: renderVal true v) :: entriesList true vs from rfl,
            joinComma_cons, keyChars]
          simp
        rw [hsplit, parseEntries.eq_def]
        cases vs with
        | nil =>
          rw [show commaTail (entriesList true ObjList.nil) = [] from rfl]
          simp only [List.nil_append]
          have hv := (ih m (by omega)).1 v ('}' :: rest) hodef.1 (by omega) rfl
          simp [parseQuoted_esc, hv]
        | cons k2 v2 vs2 =>
          rw [show commaTail (entriesList true (ObjList.cons k2 v2 vs2)) =
              ',' :: ' ' :: joinComma (entriesList true (ObjList.cons k2 v2 vs2)) from by
            rw [show entriesList true (ObjList.cons k2 v2 vs2) =
              (keyChars k2 ++ ':' :: ' ' :: renderVal true v2) :: entriesList true vs2 from rfl]
            rfl]
          simp only [List.cons_append]
          have hv := (ih m (by omega)).1 v
            (',' :: ' ' :: (joinComma (entriesList true (ObjList.cons k2 v2 vs2)) ++ '}' :: rest))
            hodef.1 (by omega) rfl
          have hE := (ih m (by omega)).2.2 (ObjList.cons k2 v2 vs2) rest
            (by simp) hodef.2 (by omega)
          simp [parseQuoted_esc, hv, hE]

theorem isUndefB_true (d : Value) (h : isUndefB d = true) : d = .undef := by
  cases d <;> first | rfl | simp [isUndefB] at h

theorem parseOneDoc_blank (rest : List Char) :
    parseOneDoc yamlSchemaVersion ('\n' :: rest) = .ok (.undef, rest) := by
  simp [parseOneDoc]

theorem parseOneDoc_render (v : Value) (rest : List Char) (hd : vdef v = true) :
    parseOneDoc yamlSchemaVersion (renderVal true v ++ '\n' :: rest) = .ok (v, rest) := by
  obtain ⟨c, cs, hcc, hcd⟩ := renderVal_head v
  have hcn : ¬ c = '\n' := fun he => absurd (he ▸ hcd) (by decide)
  have hfuel : vsize v ≤ (cs ++ '\n' :: rest).length + 1 := by
    have h1 := vsize_le_renderLen v
    rw [hcc] at h1
    simp only [List.length_cons, List.length_append] at h1 ⊢
    omega
  have hval := (roundtrip ((cs ++ '\n' :: rest).length + 1)).1 v ('\n' :: rest) hd hfuel rfl
  rw [hcc] at hval ⊢
  simp only [List.cons_append] at hval ⊢
  simp only [List.length_append, List.length_cons] at hval
  simp [parseOneDoc, hcn, hval]

theorem docTextOf_undef : docTextOf Value.undef = "\n" := rfl

theorem docTextOf_defined (d : Value) (h : d ≠ Value.undef) :
    docTextOf d = YamlLib.stringifyDoc yamlSchemaVersion true d := by
  cases d <;> first | (exact absurd rfl h) | rfl

theorem docTextOf_length_pos (d : Value) : 1 ≤ (docTextOf d).length := by
  cases d <;> simp [docTextOf, YamlLib.stringifyDoc] <;> decide

theorem stringify_nil : Yaml.stringify [] = "" := rfl

theorem stringify_singleton (d : Value) : Yaml.stringify [d] = docTextOf d := rfl

theorem stringify_cons2 (d d2 : Value) (ds : List Value) :
    Yaml.stringify (d :: d2 :: ds) =
      docTextOf d ++ "---\n" ++ Yaml.stringify (d2 :: ds) := rfl

theorem stringify_length (docs : List Value) :
    docs.length ≤ (Yaml.stringify docs).length := by
  induction docs with
  | nil => simp [stringify_nil]
  | cons d ds ih =>
    cases ds with
    | nil =>
      have h1 := docTextOf_length_pos d
      simpa [stringify_singleton] using h1
    | cons d2 ds2 =>
      rw [stringify_cons2, String.length_append, String.length_append]
      have h1 := docTextOf_length_pos d
      have h3 : ("---\n" : String).length = 4 := rfl
      simp only [List.length_cons] at ih ⊢
      omega

theorem parseDocs_stringify (docs : List Value) :
    ∀ n, docs ≠ [] → docs.length ≤ n →
      docs.all (fun v => isUndefB v || vdef v) = true →
      parseDocs yamlSchemaVersion n (Yaml.stringify docs).data = .ok docs := by
  induction docs with
  | nil => intro n h; exact absurd rfl h
  | cons d ds ih =>
    intro n hne hlen hall
    obtain ⟨m, rfl⟩ : ∃ m, n = m + 1 := ⟨n - 1, by simp at hlen; omega⟩
    simp only [List.all_cons, Bool.and_eq_true, Bool.or_eq_true] at hall
    obtain ⟨hd, hds⟩ := hall
    cases ds with
    | nil =>
      rw [stringify_singleton]
      rcases hd with hd | hd
      · rw [isUndefB_true d hd]
        show parseDocs yamlSchemaVersion (m + 1) ['\n'] = .ok [Value.undef]
        rw [parseDocs.eq_def]
        simp [parseOneDoc_blank]
      · have hnotu : d ≠ .undef := by
          intro he; rw [he] at hd; simp [vdef] at hd
        rw [docTextOf_defined d hnotu]
        show parseDocs yamlSchemaVersion (m + 1) (renderVal true d ++ ['\n']) = .ok [d]
        rw [parseDocs.eq_def]
        have h1 := parseOneDoc_render d [] hd
        simp [h1]
    | cons d2 ds2 =>
      rw [stringify_cons2, String.data_append, String.data_append]
      have hsep : ("---\n" : String).data = ['-', '-', '-', '\n'] := rfl
      rw [hsep]
      have hrec := ih m (by simp) (by simp only [List.length_cons] at hlen ⊢; omega) hds
      rcases hd with hd | hd
      · rw [isUndefB_true d hd, docTextOf_undef]
        show parseDocs yamlSchemaVersion (m + 1)
          ('\n' :: (['-', '-', '-', '\n'] ++ (Yaml.stringify (d2 :: ds2)).data)) = _
        rw [parseDocs.eq_def]
        simp [parseOneDoc_blank, hrec]
      · have hnotu : d ≠ .undef := by
          intro he; rw [he] at hd; simp [vdef] at hd
        rw [docTextOf_defined d hnotu]
        rw [show (YamlLib.stringifyDoc yamlSchemaVersion true d).data = renderVal true d ++ ['\n'] from rfl]
        rw [show (renderVal true d ++ ['\n']) ++ ['-', '-', '-', '\n'] ++ (Yaml.stringify (d2 :: ds2)).data =
            renderVal true d ++ '\n' :: ('-' :: '-' :: '-' :: '\n' :: (Yaml.stringify (d2 :: ds2)).data) from by
          simp]
        rw [parseDocs.eq_def]
        have h1 := parseOneDoc_render d ('-' :: '-' :: '-' :: '\n' :: (Yaml.stringify (d2 :: ds2)).data) hd
        simp [h1, hrec]

theorem parseAll_stringify (docs : List Value)
    (hall : docs.all (fun v => isUndefB v || vdef v) = true) :
    YamlLib.parseAllDocuments yamlSchemaVersion (Yaml.stringify docs) = .ok docs := by
  cases docs with
  | nil => rfl
  | cons d ds =>
    have hlen := stringify_length (d :: ds)
    have hne : Yaml.stringify (d :: ds) ≠ "" := by
      intro he
      rw [he] at hlen
      simp at hlen
    unfold YamlLib.parseAllDocuments
    rw [if_neg hne]
    exact parseDocs_stringify (d :: ds) _ (by simp) (by omega) hall

theorem loadBody_stringify_aux (docs : List Value)
    (h : docs.all roundTrippable = true) :
    Yaml.loadBody (Yaml.stringify docs) = .ok docs := by
  rw [List.all_eq_true] at h
  have hall : docs.all (fun v => isUndefB v || vdef v) = true := by
    rw [List.all_eq_true]
    intro v hv
    have hrt := h v hv
    simp only [roundTrippable, Bool.and_eq_true] at hrt
    simp [hrt.1]
  unfold Yaml.loadBody
  rw [parseAll_stringify docs hall]
  show Except.ok (Yaml.emptyFilterLoop docs) = Except.ok docs
  rw [emptyFilterLoop_eq_filter]
  have hfil : docs.filter (fun v => !isEmptyCheck v) = docs := by
    rw [List.filter_eq_self]
    intro a ha
    have hrt := h a ha
    simp only [roundTrippable, Bool.and_eq_true] at hrt
    exact hrt.2
  rw [hfil]
theorem entries_emit_key_aux (k : String) (n : Nat) :
    ∀ kvs : ObjList, osize kvs ≤ n → hasUndefEntry k kvs = true →
      ∃ a b : List Char, joinComma (entriesList true kvs) = a ++ keyChars k ++ b := by
  induction n with
  | zero =>
    intro kvs hsz h
    cases kvs with
    | nil => simp [hasUndefEntry] at h
    | cons k2 v rest => simp [osize] at hsz
  | succ n ih =>
    intro kvs hsz h
    cases kvs with
    | nil => simp [hasUndefEntry] at h
    | cons k2 v rest =>
      simp only [osize] at hsz
      simp only [hasUndefEntry, Bool.or_eq_true, Bool.and_eq_true] at h
      rcases h with ⟨hk, hv⟩ | h
      · have hk2 : k2 = k := by simpa using hk
        have hvu : v = .undef := isUndefB_true v hv
        subst hk2
        subst hvu
        rw [show entriesList true (ObjList.cons k2 Value.undef rest) =
          (keyChars k2 ++ ':' :: ' ' :: renderVal true Value.undef) :: entriesList true rest from rfl,
          joinComma_cons]
        exact ⟨[], ':' :: ' ' :: renderVal true Value.undef ++ commaTail (entriesList true rest),
          by simp [List.append_assoc]⟩
      · obtain ⟨a, b, hab⟩ := ih rest (by omega) h
        rw [show entriesList true (ObjList.cons k2 v rest) =
          (keyChars k2 ++ ':' :: ' ' :: renderVal true v) :: entriesList true rest from rfl,
          joinComma_cons]
        cases hL : entriesList true rest with
        | nil =>
          rw [hL] at hab
          exact absurd hab (by simp [joinComma, keyChars])
        | cons e es =>
          rw [hL] at hab
          refine ⟨(keyChars k2 ++ ':' :: ' ' :: renderVal true v) ++ ',' :: ' ' :: a, b, ?_⟩
          rw [show commaTail (e :: es) = ',' :: ' ' :: joinComma (e :: es) from rfl, hab]
          simp [List.append_assoc]

theorem entries_emit_key (k : String) (kvs : ObjList) :
    hasUndefEntry k kvs = true →
    ∃ a b : List Char, joinComma (entriesList true kvs) = a ++ keyChars k ++ b :=
  entries_emit_key_aux k (osize kvs) kvs le_rfl

theorem stringify_obj_emits_key (k : String) (kvs : ObjList)
    (h : hasUndefEntry k kvs = true) :
    ∃ pre post : String,
      Yaml.stringify [Value.obj kvs] = pre ++ String.mk (keyChars k) ++ post := by
  obtain ⟨a, b, hab⟩ := entries_emit_key k kvs h
  have hmk : ∀ x y : List Char, String.mk x ++ String.mk y = String.mk (x ++ y) :=
    fun _ _ => rfl
  refine ⟨String.mk ('{' :: a), String.mk (b ++ ['}', '\n']), ?_⟩
  rw [stringify_singleton,
    docTextOf_defined _ (fun he => Value.noConfusion he),
    show YamlLib.stringifyDoc yamlSchemaVersion true (Value.obj kvs) =
      String.mk ('{' :: ((joinComma (entriesList true kvs) ++ ['}']) ++ ['\n'])) from rfl,
    hmk, hmk]
  congr 1
  rw [hab]
  simp

/-! Claim theorems, one per claim of the specification review. -/

/-- C1: for every list of parsed raw document values, the filtering loop of
Yaml.load drops exactly the values classified empty by the spec (the
undefined marker, an explicit null, an empty sequence, a mapping with zero
keys) and preserves every other value in order; in particular the scalars 0,
false and the empty string are not classified empty. -/
theorem C1_empty_filter :
    (∀ objs : List Value,
      Yaml.emptyFilterLoop objs = objs.filter (fun v => !isEmptySpec v)) ∧
    isEmptySpec Value.undef = true ∧ isEmptySpec Value.null = true ∧
    isEmptySpec (Value.arr .nil) = true ∧ isEmptySpec (Value.obj .nil) = true ∧
    isEmptySpec (Value.num 0) = false ∧ isEmptySpec (Value.bool false) = false ∧
    isEmptySpec (Value.str "") = false := by
  refine ⟨?_, rfl, rfl, rfl, rfl, rfl, rfl, rfl⟩
  intro objs
  rw [emptyFilterLoop_eq_filter]
  have hfun : (fun v => !isEmptyCheck v) = (fun v => !isEmptySpec v) := by
    funext v
    rw [isEmptyCheck_eq_spec]
  rw [hfun]

/-- C2: parsing the string produced by Yaml.stringify with the
parse-and-filter phase of Yaml.load reproduces any document set whose
members are built only from mappings, sequences and scalars (no undefined
markers anywhere, no top-level empties), deep-equal and in order. -/
theorem C2_roundtrip (docs : List Value) (h : docs.all roundTrippable = true) :
    Yaml.loadBody (Yaml.stringify docs) = .ok docs :=
  loadBody_stringify_aux docs h

theorem C2_roundtrip_witness :
    ([Value.obj (.cons "a" (.num 1) .nil), Value.str "x", Value.num 0].all
        roundTrippable = true) ∧
    Yaml.loadBody (Yaml.stringify
        [Value.obj (.cons "a" (.num 1) .nil), Value.str "x", Value.num 0]) =
      .ok [Value.obj (.cons "a" (.num 1) .nil), Value.str "x", Value.num 0] :=
  ⟨rfl, C2_roundtrip [Value.obj (.cons "a" (.num 1) .nil), Value.str "x", Value.num 0] rfl⟩

/-- C3: Yaml.stringify renders the per-document texts (the blank-line
placeholder for undefined, the library serialization otherwise) joined by
the document separator followed by a newline, in input order, one text per
input; the empty list yields the empty string. -/
theorem C3_stringify_shape :
    Yaml.stringify [] = "" ∧
    (∀ d, Yaml.stringify [d] = docTextOf d) ∧
    (∀ d ds, ds ≠ [] →
      Yaml.stringify (d :: ds) = docTextOf d ++ "---\n" ++ Yaml.stringify ds) ∧
    (∀ docs : List Value, (docs.map docTextOf).length = docs.length) ∧
    docTextOf Value.undef = "\n" := by
  refine ⟨rfl, fun d => rfl, ?_, fun docs => by simp, rfl⟩
  intro d ds hne
  cases ds with
  | nil => exact absurd rfl hne
  | cons d2 ds2 => rfl

theorem C3_stringify_shape_witness :
    Yaml.stringify [Value.null, Value.num 1] =
      docTextOf Value.null ++ "---\n" ++ Yaml.stringify [Value.num 1] :=
  C3_stringify_shape.2.2.1 Value.null [Value.num 1] (by simp)

/-- C4: both the serialization path and the parse path pass the single fixed
schema version constant "1.1" to the yaml library, and under that version the
unquoted literal 0775 parses to the decimal value 509, not 775 (while a 1.2
parse would give 775). -/
theorem C4_schema_version :
    yamlSchemaVersion = "1.1" ∧
    (∀ docs : List Value,
      Yaml.stringify docs = joinSep "---\n" (docs.map fun r =>
        match r with
        | .undef => "\n"
        | _ => YamlLib.stringifyDoc yamlSchemaVersion true r)) ∧
    (∀ body : String,
      Yaml.loadBody body =
        match YamlLib.parseAllDocuments yamlSchemaVersion body with
        | .error e => .error e
        | .ok objs => .ok (Yaml.emptyFilterLoop objs)) ∧
    YamlLib.parseAllDocuments yamlSchemaVersion "0775\n" = .ok [Value.num 509] ∧
    YamlLib.parseAllDocuments "1.2" "0775\n" = .ok [Value.num 775] ∧
    Yaml.loadBody "0775\n" = .ok [Value.num 509] :=
  ⟨rfl, fun _ => rfl, fun _ => rfl, rfl, rfl, rfl⟩

/-- C5: when the fetched body is malformed (the parse phase fails with a
ParseError), Yaml.load fails with that error and returns no document list at
all — there is no partial result. -/
theorem C5_parse_failure (r : ExecResult) (body : String) (e : ParseError)
    (hb : loadurl r = .ok body)
    (hp : YamlLib.parseAllDocuments yamlSchemaVersion body = .error e) :
    Yaml.load r = .error (.parse e) ∧ ∀ docs : List Value, ¬ Yaml.load r = .ok docs := by
  have hload : Yaml.load r = .error (.parse e) := by
    unfold Yaml.load
    rw [hb]
    show (match YamlLib.parseAllDocuments yamlSchemaVersion body with
      | .error e => Except.error (LoadError.parse e)
      | .ok objs => Except.ok (Yaml.emptyFilterLoop objs)) = Except.error (LoadError.parse e)
    rw [hp]
  refine ⟨hload, fun docs hok => ?_⟩
  rw [hload] at hok
  cases hok

theorem C5_parse_failure_witness :
    Yaml.load ⟨0, "\x7b"⟩ = .error (.parse .depth) ∧
      ∀ docs : List Value, ¬ Yaml.load ⟨0, "\x7b"⟩ = .ok docs :=
  C5_parse_failure ⟨0, "\x7b"⟩ "\x7b" .depth rfl rfl

/-- C6: if the fetch subprocess exits nonzero or its standard output exceeds
the fixed MAX_DOWNLOAD_BUFFER cap, Yaml.load fails with a fetch failure and
no document list; and whenever loadurl succeeds it returns the entire
subprocess output, never a truncation. -/
theorem C6_fetch_failure (r : ExecResult) :
    (r.exitCode ≠ 0 ∨ MAX_DOWNLOAD_BUFFER < r.stdout.utf8ByteSize →
      ∃ e, Yaml.load r = .error (.fetch e)) ∧
    (∀ body, loadurl r = .ok body → body = r.stdout) := by
  constructor
  · intro h
    have hfail : ∃ e, loadurl r = .error e := by
      unfold loadurl execFileSync
      rcases h with h | h
      · exact ⟨.nonzeroExit, by rw [if_pos h]⟩
      · by_cases h0 : r.exitCode ≠ 0
        · exact ⟨.nonzeroExit, by rw [if_pos h0]⟩
        · exact ⟨.maxBufferExceeded, by rw [if_neg h0, if_pos h]⟩
    obtain ⟨e, he⟩ := hfail
    exact ⟨e, by unfold Yaml.load; rw [he]⟩
  · intro body hb
    unfold loadurl execFileSync at hb
    by_cases h0 : r.exitCode ≠ 0
    · rw [if_pos h0] at hb; cases hb
    · rw [if_neg h0] at hb
      by_cases h1 : MAX_DOWNLOAD_BUFFER < r.stdout.utf8ByteSize
      · rw [if_pos h1] at hb; cases hb
      · rw [if_neg h1] at hb
        exact (Except.ok.inj hb).symm

theorem C6_fetch_failure_witness :
    (∃ e, Yaml.load ⟨1, "x"⟩ = .error (.fetch e)) ∧
      "y" = (ExecResult.mk 0 "y").stdout :=
  ⟨(C6_fetch_failure ⟨1, "x"⟩).1 (Or.inl (by decide)),
    (C6_fetch_failure ⟨0, "y"⟩).2 "y" rfl⟩

/-- C7: stringifying the undefined marker followed by the mapping a = 1
yields exactly the blank placeholder block and the mapping block separated by
the document separator, and the parse-and-filter phase of Yaml.load maps
that text back to the single mapping document — the undefined block is
elided by the empty filter rather than becoming a null document. -/
theorem C7_undefined_roundtrip :
    Yaml.stringify [Value.undef, Value.obj (.cons "a" (.num 1) .nil)] =
      "\n" ++ "---\n" ++ "\x7b\"a\": 1\x7d\n" ∧
    Yaml.loadBody ("\n" ++ "---\n" ++ "\x7b\"a\": 1\x7d\n") =
      .ok [Value.obj (.cons "a" (.num 1) .nil)] :=
  ⟨rfl, rfl⟩

/-- C8: for every mapping containing a property whose value is the explicit
undefined marker, Yaml.stringify still emits that property's serialized key
in the output document rather than omitting it. -/
theorem C8_undef_key_emitted (k : String) (kvs : ObjList)
    (h : hasUndefEntry k kvs = true) :
    ∃ pre post : String,
      Yaml.stringify [Value.obj kvs] = pre ++ String.mk (keyChars k) ++ post :=
  stringify_obj_emits_key k kvs h

theorem C8_undef_key_emitted_witness :
    ∃ pre post : String,
      Yaml.stringify [Value.obj (.cons "a" Value.undef .nil)] =
        pre ++ String.mk (keyChars "a") ++ post :=
  C8_undef_key_emitted "a" (.cons "a" Value.undef .nil) rfl

/-- C9: the deprecated entry point Yaml.formatObjects is extensionally equal
to Yaml.stringify on every document list. -/
theorem C9_formatObjects_eq_stringify :
    ∀ docs : List Value, Yaml.formatObjects docs = Yaml.stringify docs :=
  fun _ => rfl

/-- C10: every element of the list returned by a successful Yaml.load call
is non-empty — not the undefined marker, not null, not an empty sequence,
and not a mapping with zero keys. -/
theorem C10_load_invariant (r : ExecResult) (docs : List Value)
    (h : Yaml.load r = .ok docs) :
    ∀ v ∈ docs, v ≠ .undef ∧ v ≠ .null ∧ v ≠ .arr .nil ∧ v ≠ .obj .nil := by
  intro v hv
  cases hu : loadurl r with
  | error e =>
    have hthis : Yaml.load r = .error (.fetch e) := by unfold Yaml.load; rw [hu]
    rw [hthis] at h
    cases h
  | ok body =>
    cases hp : YamlLib.parseAllDocuments yamlSchemaVersion body with
    | error e =>
      have hthis : Yaml.load r = .error (.parse e) := by
        unfold Yaml.load
        rw [hu]
        show (match YamlLib.parseAllDocuments yamlSchemaVersion body with
          | .error e => Except.error (LoadError.parse e)
          | .ok objs => Except.ok (Yaml.emptyFilterLoop objs)) = Except.error (LoadError.parse e)
        rw [hp]
      rw [hthis] at h
      cases h
    | ok objs =>
      have hthis : Yaml.load r = .ok (Yaml.emptyFilterLoop objs) := by
        unfold Yaml.load
        rw [hu]
        show (match YamlLib.parseAllDocuments yamlSchemaVersion body with
          | .error e => Except.error (LoadError.parse e)
          | .ok objs => Except.ok (Yaml.emptyFilterLoop objs)) = Except.ok (Yaml.emptyFilterLoop objs)
        rw [hp]
      rw [hthis] at h
      have hd : docs = Yaml.emptyFilterLoop objs := (Except.ok.inj h).symm
      subst hd
      rw [emptyFilterLoop_eq_filter] at hv
      have hchk := (List.mem_filter.mp hv).2
      have hfe : isEmptyCheck v = false := by simpa using hchk
      refine ⟨?_, ?_, ?_, ?_⟩ <;> intro he <;> rw [he] at hfe <;>
        simp [isEmptyCheck] at hfe

theorem C10_load_invariant_witness :
    Value.num 1 ≠ .undef ∧ Value.num 1 ≠ .null ∧
      Value.num 1 ≠ .arr .nil ∧ Value.num 1 ≠ .obj .nil :=
  C10_load_invariant ⟨0, "1\n"⟩ [Value.num 1] rfl (Value.num 1)
    (List.mem_singleton.mpr rfl)

end Cdk
